import Mathlib

/-!
Verification of the Folio ledger core: a shallow embedding of
`app/services/brokerage_account_service.py`,
`app/services/investment_manager.py` and
`app/services/exchange_rate_service.py`.

Python `Decimal` values are modelled as exact rationals (`ℚ`); `Decimal`
arithmetic at the default 28-digit context is exact for the additions,
subtractions and multiplications involved, and the spec treats division
results "within rounding tolerance", so the exact-rational model is the
reference semantics.  Timestamps are modelled as naturals.  Database
rows for one account are modelled as association lists, and every
service method becomes a pure state-transformer on that model.
-/

namespace Folio

/-- Transaction types accepted by the services (`transaction_type`
strings in the source; `split` reads an optional ratio from
`extra_data["split_ratio"]`, modelled as the `splitRatio` field). -/
inductive TxType where
  | buy
  | sell
  | dividend
  | interest
  | transferIn
  | transferOut
  | splitTx
deriving DecidableEq, Repr

/-- One transaction of a history, as the recalculation fold and the
incremental holding updates consume it (`amount` is always
`quantity * price`, the way both `add_transaction` methods compute it). -/
structure Tx where
  type : TxType
  quantity : ℚ
  price : ℚ
  fees : ℚ
  date : ℕ
  splitRatio : Option ℚ
deriving DecidableEq, Repr

/-- A `portfolio_holdings` / `investment_holdings` row (numeric and
date fields that the claims are about). -/
structure Holding where
  quantity : ℚ
  avgCost : ℚ
  totalCost : ℚ
  firstBuyDate : ℕ
  lastTxDate : ℕ
deriving DecidableEq, Repr

/-- Python's `str.upper()` on ASCII currency codes, written as a
transparent character map so concrete instances evaluate. -/
def strUpper (s : String) : String := ⟨s.data.map Char.toUpper⟩

/-! ## Exchange-rate resolver (`exchange_rate_service.py`) -/

/-- The tiers of the resolution chain that `get_rate` may consult. -/
inductive Tier where
  | memCache
  | dbHistory
  | liveApi
  | staticTable
deriving DecidableEq, Repr

/-- `ExchangeRateService.base_rates`: the static fallback table. -/
def baseRates : List ((String × String) × ℚ) :=
  [ (("CNY", "CNY"), 1),
    (("HKD", "CNY"), 92 / 100),
    (("USD", "CNY"), 72 / 10),
    (("USDT", "CNY"), 72 / 10),
    (("BTC", "CNY"), 500000),
    (("ETH", "CNY"), 25000),
    (("XAU", "CNY"), 600) ]

/-- `ExchangeRateService._get_fallback_rate`: direct lookup in
`base_rates`, else the reciprocal of the reverse entry, else `None`. -/
def fallbackRate (fromC toC : String) : Option ℚ :=
  match baseRates.lookup (fromC, toC) with
  | some r => some r
  | none =>
    match baseRates.lookup (toC, fromC) with
    | some r => some (1 / r)
    | none => none

/-- `ExchangeRateService.get_rate`.  The environment is passed in as
oracles: `cacheHit` is the in-process cache entry if present and within
TTL, `dbHit` the freshest database rate within 24 hours, `liveHit` the
result of `_fetch_rate` (`none` both for a `None` return and for a
raised exception, which the source catches and falls through on).
Besides the rate, the model returns the list of tiers the call
consulted, in order. -/
def getRate (cacheHit dbHit liveHit : Option ℚ) (useCache : Bool)
    (fromC toC : String) : ℚ × List Tier :=
  let f := strUpper fromC
  let t := strUpper toC
  if f = t then (1, [])
  else
    let tier1 := if useCache then cacheHit else none
    let tr1 : List Tier := if useCache then [Tier.memCache] else []
    match tier1 with
    | some r => (r, tr1)
    | none =>
      let tier2 := if useCache then dbHit else none
      let tr2 := tr1 ++ (if useCache then [Tier.dbHistory] else [])
      match tier2 with
      | some r => (r, tr2)
      | none =>
        let tr3 := tr2 ++ [Tier.liveApi]
        match liveHit with
        | some r => (r, tr3)
        | none =>
          let tr4 := tr3 ++ [Tier.staticTable]
          match fallbackRate f t with
          | some r => (r, tr4)
          | none => (1, tr4)

example : (getRate none none none true "usd" "CNY").1 = 72 / 10 := by rfl
example : (getRate (some 5) none none true "CNY" "cny").1 = 1 := by rfl
example : (getRate none none none true "CNY" "USD").1 = 1 / (72 / 10) := by rfl
example : (getRate none none none false "AAA" "BBB").1 = 1 := by rfl

/-! ## Incremental holding updates
(`BrokerageAccountService._update_holding_on_buy` / `_update_holding_on_sell`) -/

/-- `_update_holding_on_buy`: move the weighted average.  On an existing
holding, cost grows by `quantity * price` (the method receives no fees);
on a fresh symbol a new row is created with `avg_cost = price`. -/
def updateHoldingOnBuy (oh : Option Holding) (quantity price : ℚ)
    (tradeDate : ℕ) : Holding :=
  match oh with
  | some h =>
    let newQuantity := h.quantity + quantity
    let newCost := h.totalCost + quantity * price
    { h with
      quantity := newQuantity
      totalCost := newCost
      avgCost := if 0 < newQuantity then newCost / newQuantity else 0
      lastTxDate := tradeDate }
  | none =>
    { quantity := quantity
      avgCost := price
      totalCost := quantity * price
      firstBuyDate := tradeDate
      lastTxDate := tradeDate }

/-- The mutation `_update_holding_on_sell` performs on a found holding:
proportional cost reduction, then the quantity decrement, then the
clamp-to-zero of both fields when the result is not positive.  `now` is
the wall-clock date the method writes into `last_transaction_date`. -/
def sellMutation (h : Holding) (quantity : ℚ) (now : ℕ) : Holding :=
  let cost' := if 0 < h.quantity
    then h.totalCost - h.totalCost * (quantity / h.quantity)
    else h.totalCost
  let h' := { h with quantity := h.quantity - quantity, totalCost := cost',
                     lastTxDate := now }
  if h'.quantity ≤ 0 then { h' with quantity := 0, totalCost := 0 } else h'

/-- `_update_holding_on_sell`: a missing holding is left missing (the
method logs a warning and returns), otherwise `sellMutation` runs. -/
def updateHoldingOnSell (oh : Option Holding) (quantity : ℚ)
    (now : ℕ) : Option Holding :=
  oh.map (fun h => sellMutation h quantity now)

/-- One step of the incremental (mutate-in-place) path, per transaction
type, exactly as `add_transaction` dispatches: `buy`/`transfer_in` run
the buy update, `sell`/`transfer_out` the sell update, everything else
leaves the holding alone. -/
def updateHoldingOnTx (oh : Option Holding) (tx : Tx) : Option Holding :=
  match tx.type with
  | .buy | .transferIn =>
    some (updateHoldingOnBuy oh tx.quantity tx.price tx.date)
  | .sell | .transferOut => updateHoldingOnSell oh tx.quantity tx.date
  | _ => oh

/-- Replaying a whole history through the incremental path, starting
from no holding. -/
def replayIncremental (txs : List Tx) : Option Holding :=
  txs.foldl updateHoldingOnTx none

/-! ## Recalculation fold (`InvestmentManager._recalculate_holding`) -/

/-- The running accumulator of `_recalculate_holding`'s loop. -/
structure FoldAcc where
  q : ℚ
  cost : ℚ
  firstBuy : Option ℕ
deriving DecidableEq, Repr

/-- The loop body of `_recalculate_holding`: `buy`/`transfer_in` add
`amount + fees` to cost (`amount = quantity * price`), `sell`/
`transfer_out` shrink cost proportionally when the running quantity is
positive and always subtract the quantity (no clamp), `split` scales
the quantity by the ratio when one is present, `dividend`/`interest`
fall through with no effect. -/
def recalcStep (a : FoldAcc) (tx : Tx) : FoldAcc :=
  match tx.type with
  | .buy | .transferIn =>
    { q := a.q + tx.quantity
      cost := a.cost + (tx.quantity * tx.price + tx.fees)
      firstBuy := match a.firstBuy with
        | none => some tx.date
        | some d => some d }
  | .sell | .transferOut =>
    { a with
      q := a.q - tx.quantity
      cost := if 0 < a.q then a.cost - a.cost * (tx.quantity / a.q) else a.cost }
  | .splitTx =>
    match tx.splitRatio with
    | some r => { a with q := a.q * r }
    | none => a
  | _ => a

/-- The result record `_recalculate_holding` stores. -/
structure HoldingCalc where
  quantity : ℚ
  avgCost : ℚ
  totalCost : ℚ
  firstBuyDate : Option ℕ
  lastTxDate : Option ℕ
deriving DecidableEq, Repr

/-- `_recalculate_holding` on the chronologically ordered history of one
(asset_type, symbol, account) key: with no transactions the holding row
is deleted (`none`); otherwise the fold runs and, at the end, a positive
quantity gets `avg_cost = total_cost / quantity` while a non-positive
quantity gets `avg_cost = 0` and `total_cost = 0` — the quantity itself
is stored as-is. -/
def recalcHolding (txs : List Tx) : Option HoldingCalc :=
  match txs with
  | [] => none
  | _ =>
    let a := txs.foldl recalcStep ⟨0, 0, none⟩
    let last := (txs.getLast?).map Tx.date
    if 0 < a.q then
      some ⟨a.q, a.cost / a.q, a.cost, a.firstBuy, last⟩
    else
      some ⟨a.q, 0, 0, a.firstBuy, last⟩

/-- Numeric view of an optional stored holding: a missing row reads as
quantity 0, average cost 0, total cost 0. -/
def hQuantity (oh : Option Holding) : ℚ := (oh.map Holding.quantity).getD 0

/-- Total cost of an optional stored holding, 0 when missing. -/
def hTotalCost (oh : Option Holding) : ℚ := (oh.map Holding.totalCost).getD 0

/-- Average cost of an optional stored holding, 0 when missing. -/
def hAvgCost (oh : Option Holding) : ℚ := (oh.map Holding.avgCost).getD 0

/-- Quantity of a recalculation result, 0 when the row was deleted. -/
def rQuantity (r : Option HoldingCalc) : ℚ := (r.map HoldingCalc.quantity).getD 0

/-- Total cost of a recalculation result, 0 when the row was deleted. -/
def rTotalCost (r : Option HoldingCalc) : ℚ := (r.map HoldingCalc.totalCost).getD 0

/-- Average cost of a recalculation result, 0 when the row was deleted. -/
def rAvgCost (r : Option HoldingCalc) : ℚ := (r.map HoldingCalc.avgCost).getD 0

/-! ## Ledger state machine (`BrokerageAccountService.add_transaction`)

The rows one `account_id` owns, as pure data.  Cash rows are keyed by
(currency, balance_type); holding rows by (asset_type, symbol). -/

/-- A `cash_flows` row (the fields the claims are about). -/
structure CashFlowRec where
  currency : String
  flowType : String
  amount : ℚ
  balanceAfter : ℚ
deriving DecidableEq, Repr

/-- A `portfolio_transactions` row as `add_transaction` builds it. -/
structure TxRecord where
  assetType : String
  symbol : String
  txType : TxType
  quantity : ℚ
  price : ℚ
  amount : ℚ
  fees : ℚ
  tradeCurrency : String
  tradeDate : ℕ
  cashImpact : ℚ
deriving DecidableEq, Repr

/-- All rows of one brokerage account. -/
structure AccountState where
  cash : List (String × String × ℚ)
  holdings : List ((String × String) × Holding)
  transactions : List TxRecord
  flows : List CashFlowRec
deriving DecidableEq, Repr

/-- `get_cash_balance`: the row for (`currency.upper()`, balance_type),
if any. -/
def getCashBalance (cash : List (String × String × ℚ))
    (currency balanceType : String) : Option ℚ :=
  (cash.find? (fun r => r.1 = strUpper currency ∧ r.2.1 = balanceType)).map
    (fun r => r.2.2)

/-- Write `amount` into the (currency, balance_type) row, updating the
first matching row in place or appending a fresh row (`db.add`). -/
def setCashBalance (cash : List (String × String × ℚ))
    (currency balanceType : String) (amount : ℚ) :
    List (String × String × ℚ) :=
  match cash with
  | [] => [(strUpper currency, balanceType, amount)]
  | r :: rest =>
    if r.1 = strUpper currency ∧ r.2.1 = balanceType then
      (r.1, r.2.1, amount) :: rest
    else
      r :: setCashBalance rest currency balanceType amount

/-- `adjust_cash_balance`: add `delta` to the row (creating it at
`delta` when missing — no sign check anywhere), then append exactly one
`CashFlow` whose type is `deposit` for positive deltas and `withdrawal`
otherwise, carrying the post-adjustment amount. -/
def adjustCashBalance (s : AccountState) (currency : String) (delta : ℚ)
    (balanceType : String) : AccountState :=
  let newAmount := match getCashBalance s.cash currency balanceType with
    | some old => old + delta
    | none => delta
  let flowType := if 0 < delta then "deposit" else "withdrawal"
  { s with
    cash := setCashBalance s.cash currency balanceType newAmount
    flows := s.flows ++ [⟨currency, flowType, delta, newAmount⟩] }

/-- `get_holding`: the row for (asset_type, `symbol.upper()`). -/
def getHolding (s : AccountState) (assetType symbol : String) :
    Option Holding :=
  (s.holdings.find? (fun r => r.1 = (assetType, strUpper symbol))).map
    (fun r => r.2)

/-- Write a holding row for (asset_type, `symbol.upper()`): update the
first matching row or append a fresh one. -/
def setHolding (hs : List ((String × String) × Holding))
    (assetType symbol : String) (h : Holding) :
    List ((String × String) × Holding) :=
  match hs with
  | [] => [((assetType, strUpper symbol), h)]
  | r :: rest =>
    if r.1 = (assetType, strUpper symbol) then (r.1, h) :: rest
    else r :: setHolding rest assetType symbol h

/-- The holding table after `_update_holding_on_sell`: untouched when no
row matches, otherwise the matching row is mutated by `sellMutation`. -/
def sellHoldingTable (s : AccountState) (assetType symbol : String)
    (quantity : ℚ) (now : ℕ) : List ((String × String) × Holding) :=
  match getHolding s assetType symbol with
  | none => s.holdings
  | some h => setHolding s.holdings assetType symbol (sellMutation h quantity now)

/-- `cash_impact` as `add_transaction` computes it at the end:
`-(amount + fees)` for a buy, `amount - fees` for a sell, `0` for every
other type. -/
def cashImpactOf (txType : TxType) (amount fees : ℚ) : ℚ :=
  match txType with
  | .buy => -(amount + fees)
  | .sell => amount - fees
  | _ => 0

/-- `BrokerageAccountService.add_transaction`.  No input validation, no
funds check, no account lookup and no failure path: the transaction row
is always written with `amount = quantity * price`, then per type the
cash adjustment and/or holding update run, then `cash_impact` is filled
in and everything commits.  `now` models `datetime.now()` in the sell
path's `last_transaction_date`. -/
def addTransaction (s : AccountState) (assetType symbol : String)
    (txType : TxType) (quantity price : ℚ) (tradeDate : ℕ) (fees : ℚ)
    (tradeCurrency : String) (now : ℕ) : AccountState :=
  let amount := quantity * price
  let row : TxRecord :=
    { assetType := assetType
      symbol := strUpper symbol
      txType := txType
      quantity := quantity
      price := price
      amount := amount
      fees := fees
      tradeCurrency := tradeCurrency
      tradeDate := tradeDate
      cashImpact := cashImpactOf txType amount fees }
  let s1 :=
    match txType with
    | .buy =>
      let sc := adjustCashBalance s tradeCurrency (-(amount + fees)) "available"
      { sc with
        holdings := setHolding sc.holdings assetType symbol
          (updateHoldingOnBuy (getHolding sc assetType symbol)
            quantity price tradeDate) }
    | .sell =>
      let sc := adjustCashBalance s tradeCurrency (amount - fees) "available"
      { sc with holdings := sellHoldingTable sc assetType symbol quantity now }
    | .dividend => adjustCashBalance s tradeCurrency amount "available"
    | .interest => adjustCashBalance s tradeCurrency amount "available"
    | .transferIn =>
      { s with
        holdings := setHolding s.holdings assetType symbol
          (updateHoldingOnBuy (getHolding s assetType symbol)
            quantity price tradeDate) }
    | .transferOut =>
      { s with holdings := sellHoldingTable s assetType symbol quantity now }
    | .splitTx => s
  { s1 with transactions := s1.transactions ++ [row] }

/-- Spendable amount in one cash sub-ledger row, 0 when the row does
not exist yet. -/
def cashAmount (s : AccountState) (currency balanceType : String) : ℚ :=
  (getCashBalance s.cash currency balanceType).getD 0

/-! ## Helper lemmas -/

theorem hQuantity_none : hQuantity none = 0 := rfl

theorem hQuantity_some (h : Holding) : hQuantity (some h) = h.quantity := rfl

theorem hTotalCost_none : hTotalCost none = 0 := rfl

theorem hTotalCost_some (h : Holding) : hTotalCost (some h) = h.totalCost := rfl

theorem hAvgCost_none : hAvgCost none = 0 := rfl

theorem hAvgCost_some (h : Holding) : hAvgCost (some h) = h.avgCost := rfl

theorem rQuantity_none : rQuantity none = 0 := rfl

theorem rQuantity_some (r : HoldingCalc) : rQuantity (some r) = r.quantity := rfl

theorem rTotalCost_none : rTotalCost none = 0 := rfl

theorem rTotalCost_some (r : HoldingCalc) : rTotalCost (some r) = r.totalCost := rfl

theorem rAvgCost_none : rAvgCost none = 0 := rfl

theorem rAvgCost_some (r : HoldingCalc) : rAvgCost (some r) = r.avgCost := rfl

theorem getCashBalance_setCashBalance (cash : List (String × String × ℚ))
    (currency balanceType : String) (v : ℚ) :
    getCashBalance (setCashBalance cash currency balanceType v)
      currency balanceType = some v := by
  induction cash with
  | nil => simp [setCashBalance, getCashBalance, List.find?]
  | cons r rest ih =>
    by_cases h : r.1 = strUpper currency ∧ r.2.1 = balanceType
    · simp [setCashBalance, h, getCashBalance, List.find?]
    · rw [setCashBalance]
      rw [if_neg h]
      rw [getCashBalance] at ih ⊢
      simpa [List.find?, h] using ih

theorem cashAmount_adjustCashBalance (s : AccountState) (currency : String)
    (delta : ℚ) (balanceType : String) :
    cashAmount (adjustCashBalance s currency delta balanceType)
        currency balanceType =
      cashAmount s currency balanceType + delta := by
  unfold cashAmount adjustCashBalance
  cases h : getCashBalance s.cash currency balanceType <;>
    simp [h, getCashBalance_setCashBalance]

theorem transactions_adjustCashBalance (s : AccountState) (currency : String)
    (delta : ℚ) (balanceType : String) :
    (adjustCashBalance s currency delta balanceType).transactions =
      s.transactions := rfl

theorem holdings_adjustCashBalance (s : AccountState) (currency : String)
    (delta : ℚ) (balanceType : String) :
    (adjustCashBalance s currency delta balanceType).holdings =
      s.holdings := rfl

theorem fallbackRate_self (f : String) : (fallbackRate f f).getD 1 = 1 := by
  by_cases h : f = "CNY"
  · subst h; rfl
  · have hb : ∀ x : String, ((f, f) == (x, "CNY")) = false := by
      intro x
      rw [beq_eq_false_iff_ne]
      intro hxy
      exact h (congrArg Prod.snd hxy)
    have hl : baseRates.lookup (f, f) = none := by
      simp only [baseRates, List.lookup, hb]
    simp [fallbackRate, hl]

/-! ## Claims -/

/-- C8: for every pair of currency codes, `get_rate` is total, and when
the in-process cache, the database history and the live providers all
miss it returns the static fallback table's rate (direct, or the
reciprocal of the reverse entry), falling back to exactly 1 when the
table has no entry either.  The `none` oracle arguments are the
all-tiers-miss environment (a raised provider exception is caught and
modelled as a `none` live result), and the equation holds for both
values of `use_cache`. -/
theorem getRate_total_fallback (fromC toC : String) (useCache : Bool) :
    (getRate none none none useCache fromC toC).1 =
      (fallbackRate (strUpper fromC) (strUpper toC)).getD 1 := by
  unfold getRate
  by_cases h : strUpper fromC = strUpper toC
  · rw [h]
    simp [fallbackRate_self]
  · simp only [h, if_false, ite_self]
    cases hf : fallbackRate (strUpper fromC) (strUpper toC) <;> simp [hf]

/-- C9: same-currency pairs (after `upper()` normalization) resolve to
exactly 1 before any tier is consulted: whatever the cache, database and
provider oracles hold, the result is the rate 1 with an empty list of
consulted tiers. -/
theorem getRate_same_currency (cacheHit dbHit liveHit : Option ℚ)
    (useCache : Bool) (fromC toC : String)
    (h : strUpper fromC = strUpper toC) :
    getRate cacheHit dbHit liveHit useCache fromC toC = (1, []) := by
  unfold getRate
  rw [h]
  simp

/-- Witness for C9 at the mixed-case pair ("cny", "CNY") with a
populated cache, database and provider environment. -/
theorem getRate_same_currency_witness :
    strUpper "cny" = strUpper "CNY" ∧
      getRate (some 5) (some 6) (some 7) true "cny" "CNY" = (1, []) :=
  ⟨by decide,
    getRate_same_currency (some 5) (some 6) (some 7) true "cny" "CNY" (by decide)⟩

/-- C1 counterexample: on an account whose USD available balance is 40,
a buy of 10 units at price 5 with fee 1 (total debit 51 > 40) does not
fail: the Transaction row is written, a CashFlow is appended, and the
balance is driven to −11 instead of staying 40. -/
theorem addTransaction_overdraft_counterexample :
    cashAmount (addTransaction ⟨[("USD", "available", 40)], [], [], []⟩
        "stock" "AAPL" .buy 10 5 0 1 "USD" 0) "USD" "available" = -11 ∧
    cashAmount (addTransaction ⟨[("USD", "available", 40)], [], [], []⟩
        "stock" "AAPL" .buy 10 5 0 1 "USD" 0) "USD" "available" ≠ 40 ∧
    (addTransaction ⟨[("USD", "available", 40)], [], [], []⟩
        "stock" "AAPL" .buy 10 5 0 1 "USD" 0).transactions.length = 1 ∧
    (addTransaction ⟨[("USD", "available", 40)], [], [], []⟩
        "stock" "AAPL" .buy 10 5 0 1 "USD" 0).flows.length = 1 := by
  refine ⟨?_, ?_, rfl, rfl⟩ <;>
    · simp [addTransaction, adjustCashBalance, getCashBalance, setCashBalance,
        cashAmount, getHolding, setHolding, strUpper, List.find?]
      norm_num

/-- C1 (amended): `add_transaction` performs no funds check at all — a
buy always succeeds, debits `quantity * price + fees` from the trade
currency's available balance even when the result is negative, always
writes the Transaction row (with `cash_impact = -(amount + fees)`) and
always appends exactly one CashFlow. -/
theorem addTransaction_buy_always_debits (s : AccountState)
    (assetType symbol : String) (q p : ℚ) (d : ℕ) (fee : ℚ)
    (cur : String) (now : ℕ) :
    cashAmount (addTransaction s assetType symbol .buy q p d fee cur now)
        cur "available" =
      cashAmount s cur "available" - (q * p + fee) ∧
    (addTransaction s assetType symbol .buy q p d fee cur now).transactions =
      s.transactions ++
        [⟨assetType, strUpper symbol, .buy, q, p, q * p, fee, cur, d,
          -(q * p + fee)⟩] ∧
    (addTransaction s assetType symbol .buy q p d fee cur now).flows.length =
      s.flows.length + 1 := by
  refine ⟨?_, rfl, ?_⟩
  · have h1 := cashAmount_adjustCashBalance s cur (-(q * p + fee)) "available"
    unfold cashAmount at h1 ⊢
    rw [show (addTransaction s assetType symbol .buy q p d fee cur now).cash =
        (adjustCashBalance s cur (-(q * p + fee)) "available").cash from rfl]
    rw [h1]
    ring
  · rw [show (addTransaction s assetType symbol .buy q p d fee cur now).flows =
        (adjustCashBalance s cur (-(q * p + fee)) "available").flows from rfl]
    simp [adjustCashBalance]

/-- C5 counterexample: a buy with negative quantity (−5 units at price
10) is not rejected: the Transaction row is written and, because
`cash_impact = -(amount + fees) = 50`, the "purchase" credits the cash
balance. -/
theorem addTransaction_negative_quantity_counterexample :
    (addTransaction ⟨[], [], [], []⟩
        "stock" "AAPL" .buy (-5) 10 0 0 "CNY" 0).transactions.length = 1 ∧
    cashAmount (addTransaction ⟨[], [], [], []⟩
        "stock" "AAPL" .buy (-5) 10 0 0 "CNY" 0) "CNY" "available" = 50 := by
  refine ⟨rfl, ?_⟩
  simp [addTransaction, adjustCashBalance, getCashBalance, setCashBalance,
    cashAmount, getHolding, setHolding, strUpper, List.find?]
  norm_num

/-- C5 (amended): `add_transaction` performs no input validation — for
every transaction type and every quantity, price, fee and currency
(non-positive and negative values included), the Transaction row is
written with `amount = quantity * price` and the per-type cash and
holding updates are applied; nothing is ever rejected.  Account
existence and activity are checked only in the HTTP route, not here. -/
theorem addTransaction_never_rejects (s : AccountState)
    (assetType symbol : String) (ty : TxType) (q p : ℚ) (d : ℕ) (fee : ℚ)
    (cur : String) (now : ℕ) :
    (addTransaction s assetType symbol ty q p d fee cur now).transactions =
      s.transactions ++
        [⟨assetType, strUpper symbol, ty, q, p, q * p, fee, cur, d,
          cashImpactOf ty (q * p) fee⟩] := by
  cases ty <;> rfl

/-- C10: a sell or transfer_out on a key with no Holding row still
succeeds: the Transaction row is written, a sell credits
`amount − fees` to the available balance of the trade currency (a
transfer_out touches neither cash nor flows), and the holding table is
left exactly as it was — no row is created or modified. -/
theorem addTransaction_sell_without_holding (s : AccountState)
    (assetType symbol : String) (q p : ℚ) (d : ℕ) (fee : ℚ)
    (cur : String) (now : ℕ)
    (h : getHolding s assetType symbol = none) :
    (addTransaction s assetType symbol .sell q p d fee cur now).holdings =
      s.holdings ∧
    (addTransaction s assetType symbol .sell q p d fee cur now).transactions =
      s.transactions ++
        [⟨assetType, strUpper symbol, .sell, q, p, q * p, fee, cur, d,
          q * p - fee⟩] ∧
    cashAmount (addTransaction s assetType symbol .sell q p d fee cur now)
        cur "available" =
      cashAmount s cur "available" + (q * p - fee) ∧
    (addTransaction s assetType symbol .transferOut q p d fee cur now).holdings =
      s.holdings ∧
    (addTransaction s assetType symbol .transferOut q p d fee cur now).cash =
      s.cash ∧
    (addTransaction s assetType symbol .transferOut q p d fee cur now).flows =
      s.flows ∧
    (addTransaction s assetType symbol .transferOut q p d fee cur now).transactions =
      s.transactions ++
        [⟨assetType, strUpper symbol, .transferOut, q, p, q * p, fee, cur, d,
          0⟩] := by
  have hsc : getHolding (adjustCashBalance s cur (q * p - fee) "available")
      assetType symbol = none := h
  refine ⟨?_, rfl, ?_, ?_, rfl, rfl, rfl⟩
  · show (sellHoldingTable (adjustCashBalance s cur (q * p - fee) "available")
        assetType symbol q now) = s.holdings
    rw [sellHoldingTable, hsc]
    rfl
  · have h1 := cashAmount_adjustCashBalance s cur (q * p - fee) "available"
    unfold cashAmount at h1 ⊢
    rw [show (addTransaction s assetType symbol .sell q p d fee cur now).cash =
        (adjustCashBalance s cur (q * p - fee) "available").cash from rfl]
    rw [h1]
  · show (sellHoldingTable s assetType symbol q now) = s.holdings
    rw [sellHoldingTable, h]

/-- Witness for C10: a sell of 3 units at price 7 with fee 1 on an
account that holds only cash (no holding rows at all). -/
theorem addTransaction_sell_without_holding_witness :
    getHolding ⟨[("CNY", "available", 100)], [], [], []⟩ "stock" "AAPL" = none ∧
    (addTransaction ⟨[("CNY", "available", 100)], [], [], []⟩
        "stock" "AAPL" .sell 3 7 0 1 "CNY" 0).holdings = [] :=
  ⟨rfl,
    (addTransaction_sell_without_holding ⟨[("CNY", "available", 100)], [], [], []⟩
      "stock" "AAPL" 3 7 0 1 "CNY" 0 rfl).1⟩

/-- C2 counterexample: the incremental buy update
(`_update_holding_on_buy`, one of the two code paths the claim covers)
does not add fees: a buy of 100 units at price 10 with fee 5 on a fresh
holding stores total_cost 1000, not the claimed 1005. -/
theorem updateHoldingOnBuy_fees_counterexample :
    hTotalCost (replayIncremental [⟨.buy, 100, 10, 5, 0, none⟩]) = 1000 ∧
    hTotalCost (replayIncremental [⟨.buy, 100, 10, 5, 0, none⟩]) ≠ 1005 := by
  constructor <;>
    · simp [replayIncremental, updateHoldingOnTx, updateHoldingOnBuy, hTotalCost]
      norm_num

/-- C2 (amended): in the recalculation fold (`_recalculate_holding`),
every buy or transfer_in step increases quantity by `qty` and
total_cost by `qty * price + fees`; in particular a buy of 100 units at
price 10 with fee 5 on a fresh (empty) history yields quantity 100,
total_cost 1005 and avg_cost 10.05.  The incremental
`_update_holding_on_buy` path, by contrast, adds only `qty * price`
(see the counterexample). -/
theorem recalcStep_buy_adds_fees :
    (∀ (a : FoldAcc) (tx : Tx), tx.type = .buy ∨ tx.type = .transferIn →
      (recalcStep a tx).q = a.q + tx.quantity ∧
      (recalcStep a tx).cost = a.cost + (tx.quantity * tx.price + tx.fees)) ∧
    recalcHolding [⟨.buy, 100, 10, 5, 0, none⟩] =
      some ⟨100, 201 / 20, 1005, some 0, some 0⟩ := by
  constructor
  · rintro a tx (h | h) <;> simp [recalcStep, h]
  · simp [recalcHolding, recalcStep]
    norm_num

/-- Witness for C2: the buy step applied to the empty accumulator with
the scenario transaction. -/
theorem recalcStep_buy_adds_fees_witness :
    (recalcStep ⟨0, 0, none⟩ ⟨.buy, 100, 10, 5, 0, none⟩).q = 0 + 100 ∧
    (recalcStep ⟨0, 0, none⟩ ⟨.buy, 100, 10, 5, 0, none⟩).cost =
      0 + (100 * 10 + 5) :=
  recalcStep_buy_adds_fees.1 ⟨0, 0, none⟩ ⟨.buy, 100, 10, 5, 0, none⟩
    (Or.inl rfl)

/-- C6: for a sell of `s` units from a holding with positive quantity
and `s ≤ quantity`, both code paths shrink total_cost exactly to
`old_total_cost * (1 − s / old_quantity)` and decrement the quantity by
`s`; for a partial sell (`s <` old quantity) the cost-per-unit ratio
and the stored avg_cost are unchanged.  Scenario: from quantity 100,
total_cost 1005 (avg 10.05), selling 40 leaves quantity 60, total_cost
603, avg_cost 10.05. -/
theorem sell_conservation :
    (∀ (h : Holding) (s : ℚ) (now : ℕ), 0 < h.quantity → s ≤ h.quantity →
      (sellMutation h s now).totalCost = h.totalCost * (1 - s / h.quantity) ∧
      (sellMutation h s now).quantity = h.quantity - s ∧
      (s < h.quantity →
        (sellMutation h s now).totalCost / (sellMutation h s now).quantity =
          h.totalCost / h.quantity ∧
        (sellMutation h s now).avgCost = h.avgCost)) ∧
    (∀ (a : FoldAcc) (tx : Tx), tx.type = .sell ∨ tx.type = .transferOut →
      0 < a.q → tx.quantity ≤ a.q →
      (recalcStep a tx).cost = a.cost * (1 - tx.quantity / a.q) ∧
      (recalcStep a tx).q = a.q - tx.quantity) ∧
    sellMutation ⟨100, 201 / 20, 1005, 0, 0⟩ 40 1 = ⟨60, 201 / 20, 603, 0, 1⟩ := by
  refine ⟨?_, ?_, ?_⟩
  · intro h s now hq hle
    have hq0 : h.quantity ≠ 0 := ne_of_gt hq
    rcases lt_or_eq_of_le hle with hlt | heq
    · have hpos : ¬(h.quantity - s ≤ 0) := not_le.mpr (sub_pos.mpr hlt)
      have hne : h.quantity - s ≠ 0 := sub_ne_zero.mpr (ne_of_gt hlt)
      refine ⟨?_, ?_, fun _ => ⟨?_, ?_⟩⟩
      · simp only [sellMutation, if_pos hq, if_neg hpos]
        ring
      · simp only [sellMutation, if_pos hq, if_neg hpos]
      · simp only [sellMutation, if_pos hq, if_neg hpos]
        field_simp
        ring
      · simp only [sellMutation, if_pos hq, if_neg hpos]
    · subst heq
      refine ⟨?_, ?_, fun hc => absurd hc (lt_irrefl _)⟩
      · simp only [sellMutation, if_pos hq]
        rw [div_self hq0]
        simp
      · simp [sellMutation, if_pos hq]
  · rintro a tx (h | h) hq hle <;>
      exact ⟨by simp only [recalcStep, h, if_pos hq]; ring,
        by simp [recalcStep, h]⟩
  · simp only [sellMutation]
    norm_num

/-- Witness for C6: the scenario sell (40 out of 100 units at avg cost
10.05) through the incremental path. -/
theorem sell_conservation_witness :
    (0:ℚ) < 100 ∧ (40:ℚ) ≤ 100 ∧
    (sellMutation ⟨100, 201 / 20, 1005, 0, 0⟩ 40 1).totalCost =
      1005 * (1 - 40 / 100) :=
  ⟨by norm_num, by norm_num,
    (sell_conservation.1 ⟨100, 201 / 20, 1005, 0, 0⟩ 40 1 (by norm_num)
      (by norm_num)).1⟩

/-- The stored-holding invariant of C4, read through the optional-row
views: non-negative quantity and cost, with zero cost at zero quantity
(a missing row satisfies it trivially). -/
def HInv (oh : Option Holding) : Prop :=
  0 ≤ hQuantity oh ∧ 0 ≤ hTotalCost oh ∧
    (hQuantity oh = 0 → hTotalCost oh = 0)

theorem hInv_none : HInv none := ⟨le_refl 0, le_refl 0, fun _ => rfl⟩

theorem hInv_sellMutation (h : Holding) (s : ℚ) (now : ℕ)
    (_h1 : 0 ≤ h.quantity) (h2 : 0 ≤ h.totalCost) (hs : 0 < s) :
    HInv (some (sellMutation h s now)) := by
  unfold HInv
  simp only [hQuantity_some, hTotalCost_some, sellMutation]
  by_cases hcl : h.quantity - s ≤ 0
  · rw [if_pos hcl]
    exact ⟨le_refl 0, le_refl 0, fun _ => rfl⟩
  · rw [if_neg hcl]
    have hlt : s < h.quantity := by
      by_contra hc
      exact hcl (by linarith [not_lt.mp hc])
    have hq0 : 0 < h.quantity := lt_trans hs hlt
    rw [if_pos hq0]
    refine ⟨show (0:ℚ) ≤ h.quantity - s by linarith, ?_, fun h0 => ?_⟩
    · show 0 ≤ h.totalCost - h.totalCost * (s / h.quantity)
      have heq : h.totalCost - h.totalCost * (s / h.quantity) =
          h.totalCost * (1 - s / h.quantity) := by ring
      rw [heq]
      refine mul_nonneg h2 ?_
      have hdiv : s / h.quantity ≤ 1 := by
        rw [div_le_one hq0]
        exact le_of_lt hlt
      linarith
    · exact absurd (show h.quantity - s = 0 from h0) (by intro hc; linarith)

theorem hInv_updateHoldingOnTx (oh : Option Holding) (tx : Tx)
    (hinv : HInv oh) (hq : 0 < tx.quantity) (hp : 0 ≤ tx.price) :
    HInv (updateHoldingOnTx oh tx) := by
  obtain ⟨h1, h2, h3⟩ := hinv
  have hqp : 0 ≤ tx.quantity * tx.price := mul_nonneg (le_of_lt hq) hp
  cases htype : tx.type
  case buy | transferIn =>
    all_goals
      simp only [updateHoldingOnTx, htype]
      cases oh with
      | none =>
        unfold HInv
        simp only [hQuantity_some, hTotalCost_some, updateHoldingOnBuy]
        exact ⟨le_of_lt hq, hqp, fun h0 => absurd h0 (ne_of_gt hq)⟩
      | some h =>
        simp only [hQuantity_some, hTotalCost_some] at h1 h2
        unfold HInv
        simp only [hQuantity_some, hTotalCost_some, updateHoldingOnBuy]
        have hpos : 0 < h.quantity + tx.quantity := by linarith
        refine ⟨le_of_lt hpos, ?_, fun h0 => absurd h0 (ne_of_gt hpos)⟩
        show 0 ≤ h.totalCost + tx.quantity * tx.price
        linarith
  case sell | transferOut =>
    all_goals
      simp only [updateHoldingOnTx, htype, updateHoldingOnSell]
      cases oh with
      | none => exact hInv_none
      | some h =>
        simp only [hQuantity_some, hTotalCost_some] at h1 h2
        show HInv (some (sellMutation h tx.quantity tx.date))
        exact hInv_sellMutation h tx.quantity tx.date h1 h2 hq
  all_goals
    simp only [updateHoldingOnTx, htype]
    exact ⟨h1, h2, h3⟩

theorem hInv_foldl : ∀ (txs : List Tx) (oh : Option Holding),
    (∀ tx ∈ txs, 0 < tx.quantity ∧ 0 ≤ tx.price) → HInv oh →
    HInv (txs.foldl updateHoldingOnTx oh)
  | [], _, _, hinv => hinv
  | t :: ts, oh, hall, hinv =>
    hInv_foldl ts (updateHoldingOnTx oh t)
      (fun tx htx => hall tx (List.mem_cons_of_mem t htx))
      (hInv_updateHoldingOnTx oh t hinv
        (hall t (List.mem_cons_self t ts)).1
        (hall t (List.mem_cons_self t ts)).2)

theorem recalcHolding_cons (t : Tx) (ts : List Tx) :
    recalcHolding (t :: ts) =
      if 0 < ((t :: ts).foldl recalcStep ⟨0, 0, none⟩).q then
        some ⟨((t :: ts).foldl recalcStep ⟨0, 0, none⟩).q,
          ((t :: ts).foldl recalcStep ⟨0, 0, none⟩).cost /
            ((t :: ts).foldl recalcStep ⟨0, 0, none⟩).q,
          ((t :: ts).foldl recalcStep ⟨0, 0, none⟩).cost,
          ((t :: ts).foldl recalcStep ⟨0, 0, none⟩).firstBuy,
          ((t :: ts).getLast?).map Tx.date⟩
      else
        some ⟨((t :: ts).foldl recalcStep ⟨0, 0, none⟩).q, 0, 0,
          ((t :: ts).foldl recalcStep ⟨0, 0, none⟩).firstBuy,
          ((t :: ts).getLast?).map Tx.date⟩ := rfl

/-- C4 counterexample: the recalculation fold
(`_recalculate_holding`, one of the two cited code paths) silently
stores a negative quantity on oversell: a lone sell of 5 units yields a
stored holding with quantity −5 (cost and avg are zeroed, the quantity
is not). -/
theorem recalcHolding_negative_quantity_counterexample :
    recalcHolding [⟨.sell, 5, 1, 0, 0, none⟩] =
      some ⟨-5, 0, 0, none, some 0⟩ ∧ ¬(0 ≤ (-5 : ℚ)) := by
  constructor
  · norm_num [recalcHolding, recalcStep]
  · norm_num

/-- C4 (amended): for histories of transactions with positive quantity
and non-negative price, the incremental brokerage path keeps every
stored holding at quantity ≥ 0 with total_cost ≥ 0 and zero cost at
zero quantity, even under oversell (it clamps); and the recalculation
fold guarantees `quantity = 0 → total_cost = 0`.  The fold does NOT
guarantee `quantity ≥ 0`: on oversell it stores the negative quantity
(see the counterexample). -/
theorem holding_invariant (H : List Tx)
    (hall : ∀ tx ∈ H, 0 < tx.quantity ∧ 0 ≤ tx.price) :
    (0 ≤ hQuantity (replayIncremental H) ∧
      0 ≤ hTotalCost (replayIncremental H) ∧
      (hQuantity (replayIncremental H) = 0 →
        hTotalCost (replayIncremental H) = 0)) ∧
    (rQuantity (recalcHolding H) = 0 → rTotalCost (recalcHolding H) = 0) := by
  constructor
  · exact hInv_foldl H none hall hInv_none
  · cases H with
    | nil => simp [recalcHolding, rQuantity, rTotalCost]
    | cons t ts =>
      rw [recalcHolding_cons]
      by_cases hpos : 0 < ((t :: ts).foldl recalcStep ⟨0, 0, none⟩).q
      · rw [if_pos hpos]
        simp only [rQuantity_some, rTotalCost_some]
        intro h0
        rw [h0] at hpos
        exact absurd hpos (lt_irrefl 0)
      · rw [if_neg hpos]
        simp only [rQuantity_some, rTotalCost_some]
        exact fun _ => trivial

/-- Witness for C4: an oversell history — buy 10, then sell 15 — through
both paths. -/
theorem holding_invariant_witness :
    (∀ tx ∈ [(⟨.buy, 10, 1, 0, 0, none⟩ : Tx), ⟨.sell, 15, 1, 0, 1, none⟩],
      0 < tx.quantity ∧ 0 ≤ tx.price) ∧
    0 ≤ hQuantity (replayIncremental
      [⟨.buy, 10, 1, 0, 0, none⟩, ⟨.sell, 15, 1, 0, 1, none⟩]) := by
  have hall : ∀ tx ∈ [(⟨.buy, 10, 1, 0, 0, none⟩ : Tx),
      ⟨.sell, 15, 1, 0, 1, none⟩], 0 < tx.quantity ∧ 0 ≤ tx.price := by
    intro tx htx
    simp only [List.mem_cons, List.not_mem_nil, or_false] at htx
    rcases htx with rfl | rfl <;> norm_num
  exact ⟨hall,
    (holding_invariant [⟨.buy, 10, 1, 0, 0, none⟩, ⟨.sell, 15, 1, 0, 1, none⟩]
      hall).1.1⟩

/-! ## C3: incremental path vs. recalculation fold -/

/-- The side conditions under which the two holding algorithms can
agree, checked along the history with the running quantity `q`:
positive transaction quantities, zero fees on acquisitions (the
incremental buy update drops fees), no oversell (each sell happens
against a positive running quantity and sells at most all of it), and
no split transactions (the incremental path ignores them while the fold
scales quantity). -/
def validHistory : ℚ → List Tx → Bool
  | _, [] => true
  | q, tx :: rest =>
    match tx.type with
    | .buy | .transferIn =>
      decide (0 < tx.quantity) && decide (tx.fees = 0) &&
        validHistory (q + tx.quantity) rest
    | .sell | .transferOut =>
      decide (0 < tx.quantity) && decide (tx.quantity ≤ q) &&
        decide (0 < q) && validHistory (q - tx.quantity) rest
    | .dividend => validHistory q rest
    | .interest => validHistory q rest
    | .splitTx => false

/-- The simulation relation between a stored incremental holding and
the fold accumulator: same quantity and cost, the stored average is the
cost-per-unit whenever quantity is positive, and the running numbers
are well-formed (non-negative quantity, zero cost at zero quantity). -/
def Agrees (oh : Option Holding) (a : FoldAcc) : Prop :=
  hQuantity oh = a.q ∧ hTotalCost oh = a.cost ∧
    (0 < a.q → hAvgCost oh = a.cost / a.q) ∧
    0 ≤ a.q ∧ (a.q = 0 → a.cost = 0)

theorem agrees_none : Agrees none ⟨0, 0, none⟩ :=
  ⟨rfl, rfl, fun h => absurd h (lt_irrefl 0), le_refl 0, fun _ => rfl⟩

theorem agrees_buy (oh : Option Holding) (a : FoldAcc) (t : Tx)
    (hA : Agrees oh a) (hqt : 0 < t.quantity) (hf : t.fees = 0)
    (ht : t.type = .buy ∨ t.type = .transferIn) :
    Agrees (updateHoldingOnTx oh t) (recalcStep a t) := by
  obtain ⟨hq, hc, _, hnn, hz⟩ := hA
  have hstep : recalcStep a t =
      ⟨a.q + t.quantity, a.cost + (t.quantity * t.price + t.fees),
        match a.firstBuy with | none => some t.date | some d => some d⟩ := by
    rcases ht with ht | ht <;> simp [recalcStep, ht]
  have hupd : updateHoldingOnTx oh t =
      some (updateHoldingOnBuy oh t.quantity t.price t.date) := by
    rcases ht with ht | ht <;> simp [updateHoldingOnTx, ht]
  rw [hstep, hupd]
  cases oh with
  | none =>
    have hq0 : a.q = 0 := by rw [← hq]; rfl
    have hc0 : a.cost = 0 := hz hq0
    have hpos : 0 < a.q + t.quantity := by rw [hq0]; simpa using hqt
    unfold Agrees
    simp only [hQuantity_some, hTotalCost_some, hAvgCost_some,
      updateHoldingOnBuy]
    refine ⟨by rw [hq0]; ring, by rw [hc0, hf]; ring, fun _ => ?_,
      le_of_lt hpos, fun h0 => absurd h0 (ne_of_gt hpos)⟩
    show t.price = (a.cost + (t.quantity * t.price + t.fees)) / (a.q + t.quantity)
    rw [hq0, hc0, hf, zero_add, add_zero, zero_add,
      mul_div_cancel_left₀ _ (ne_of_gt hqt)]
  | some h =>
    simp only [hQuantity_some, hTotalCost_some, hAvgCost_some] at hq hc
    have hpos : 0 < a.q + t.quantity := by
      have := lt_of_lt_of_le hqt (le_add_of_nonneg_left hnn)
      linarith
    unfold Agrees
    simp only [hQuantity_some, hTotalCost_some, hAvgCost_some,
      updateHoldingOnBuy]
    have hqeq : h.quantity + t.quantity = a.q + t.quantity := by rw [hq]
    have hceq : h.totalCost + t.quantity * t.price =
        a.cost + (t.quantity * t.price + t.fees) := by rw [hc, hf]; ring
    refine ⟨hqeq, hceq, fun _ => ?_, le_of_lt hpos,
      fun h0 => absurd h0 (ne_of_gt hpos)⟩
    have hif : 0 < h.quantity + t.quantity := by rw [hqeq]; exact hpos
    show (if 0 < h.quantity + t.quantity then
        (h.totalCost + t.quantity * t.price) / (h.quantity + t.quantity)
      else 0) = (a.cost + (t.quantity * t.price + t.fees)) / (a.q + t.quantity)
    rw [if_pos hif, hceq, hqeq]

theorem agrees_sell (oh : Option Holding) (a : FoldAcc) (t : Tx)
    (hA : Agrees oh a) (_hqt : 0 < t.quantity) (hle : t.quantity ≤ a.q)
    (hpos : 0 < a.q) (ht : t.type = .sell ∨ t.type = .transferOut) :
    Agrees (updateHoldingOnTx oh t) (recalcStep a t) := by
  obtain ⟨hq, hc, havg, hnn, hz⟩ := hA
  have hq0 : a.q ≠ 0 := ne_of_gt hpos
  have hstep : recalcStep a t =
      ⟨a.q - t.quantity, a.cost - a.cost * (t.quantity / a.q), a.firstBuy⟩ := by
    rcases ht with ht | ht <;> simp [recalcStep, ht, if_pos hpos]
  cases oh with
  | none => exact absurd (hq ▸ hpos) (by simp [hQuantity_none])
  | some h =>
    simp only [hQuantity_some, hTotalCost_some, hAvgCost_some] at hq hc havg
    have hupd : updateHoldingOnTx (some h) t =
        some (sellMutation h t.quantity t.date) := by
      rcases ht with ht | ht <;>
        simp [updateHoldingOnTx, ht, updateHoldingOnSell]
    rw [hstep, hupd]
    have hhq : 0 < h.quantity := by rw [hq]; exact hpos
    unfold sellMutation
    rw [if_pos hhq]
    rcases lt_or_eq_of_le hle with hlt | heq
    · have hncl : ¬(h.quantity - t.quantity ≤ 0) := by
        rw [hq]
        exact not_le.mpr (sub_pos.mpr hlt)
      rw [if_neg hncl]
      have hq' : 0 < a.q - t.quantity := sub_pos.mpr hlt
      unfold Agrees
      simp only [hQuantity_some, hTotalCost_some, hAvgCost_some]
      refine ⟨by rw [hq], by rw [hq, hc], fun _ => ?_, le_of_lt hq',
        fun h0 => absurd h0 (ne_of_gt hq')⟩
      show h.avgCost = (a.cost - a.cost * (t.quantity / a.q)) / (a.q - t.quantity)
      rw [havg hpos]
      rw [div_eq_div_iff hq0 (ne_of_gt hq')]
      field_simp
      ring
    · have hcl : h.quantity - t.quantity ≤ 0 := by
        rw [hq, ← heq]
        simp
      rw [if_pos hcl]
      have hq' : a.q - t.quantity = 0 := by rw [← heq]; ring
      have hc' : a.cost - a.cost * (t.quantity / a.q) = 0 := by
        rw [← heq] at hq0 ⊢
        rw [div_self hq0]
        ring
      unfold Agrees
      simp only [hQuantity_some, hTotalCost_some, hAvgCost_some]
      exact ⟨by rw [hq'], by rw [hc'], fun hcon => absurd (hq' ▸ hcon) (lt_irrefl 0),
        le_of_eq hq'.symm, fun _ => hc'⟩

theorem agrees_foldl (txs : List Tx) : ∀ (oh : Option Holding) (a : FoldAcc),
    Agrees oh a → validHistory a.q txs = true →
    Agrees (txs.foldl updateHoldingOnTx oh) (txs.foldl recalcStep a) := by
  induction txs with
  | nil => exact fun oh a hA _ => hA
  | cons t ts ih =>
    intro oh a hA hv
    rw [List.foldl_cons, List.foldl_cons]
    cases htype : t.type
    case buy | transferIn =>
      all_goals
        rw [validHistory] at hv
        simp only [htype, Bool.and_eq_true, decide_eq_true_eq] at hv
        obtain ⟨⟨hqt, hf⟩, htail⟩ := hv
        refine ih _ _ ?_ ?_
        · exact agrees_buy oh a t hA hqt hf (by simp [htype])
        · have : (recalcStep a t).q = a.q + t.quantity := by
            simp [recalcStep, htype]
          rw [this]
          exact htail
    case sell | transferOut =>
      all_goals
        rw [validHistory] at hv
        simp only [htype, Bool.and_eq_true, decide_eq_true_eq] at hv
        obtain ⟨⟨⟨hqt, hle⟩, hpos⟩, htail⟩ := hv
        refine ih _ _ ?_ ?_
        · exact agrees_sell oh a t hA hqt hle hpos (by simp [htype])
        · have : (recalcStep a t).q = a.q - t.quantity := by
            simp [recalcStep, htype, if_pos hpos]
          rw [this]
          exact htail
    case dividend | interest =>
      all_goals
        rw [validHistory] at hv
        simp only [htype] at hv
        have hstep : recalcStep a t = a := by simp [recalcStep, htype]
        have hupd : updateHoldingOnTx oh t = oh := by
          simp [updateHoldingOnTx, htype]
        rw [hstep, hupd]
        exact ih oh a hA hv
    case splitTx =>
      rw [validHistory] at hv
      simp only [htype] at hv
      exact absurd hv (by simp)

/-- C3 counterexample: on the single-transaction history "buy 100 at
price 10 with fee 5" the incremental path stores total_cost 1000 while
the recalculation fold returns 1005 — the two algorithms are not
equivalent as claimed (fees are the divergence). -/
theorem incremental_recalc_divergence_counterexample :
    hTotalCost (replayIncremental [⟨.buy, 100, 10, 5, 0, none⟩]) = 1000 ∧
    rTotalCost (recalcHolding [⟨.buy, 100, 10, 5, 0, none⟩]) = 1005 ∧
    hTotalCost (replayIncremental [⟨.buy, 100, 10, 5, 0, none⟩]) ≠
      rTotalCost (recalcHolding [⟨.buy, 100, 10, 5, 0, none⟩]) := by
  refine ⟨?_, ?_, ?_⟩ <;>
    norm_num [replayIncremental, updateHoldingOnTx, updateHoldingOnBuy,
      hTotalCost, recalcHolding, recalcStep, rTotalCost]

/-- C3 (amended): the incremental mutate-in-place path and the
recompute-from-history fold agree — same final quantity and total_cost,
and same avg_cost whenever the final quantity is positive — for every
history in which acquisition fees are zero, there is no split
transaction, every transaction quantity is positive, and no sell or
transfer_out oversells (each runs against a positive running quantity
and takes at most all of it).  Outside those conditions the two
algorithms diverge (fees: see the counterexample; oversell: the fold
goes negative while the incremental path clamps; splits: only the fold
applies them). -/
theorem incremental_refines_recalc (H : List Tx)
    (hv : validHistory 0 H = true) :
    hQuantity (replayIncremental H) = rQuantity (recalcHolding H) ∧
    hTotalCost (replayIncremental H) = rTotalCost (recalcHolding H) ∧
    (0 < rQuantity (recalcHolding H) →
      hAvgCost (replayIncremental H) = rAvgCost (recalcHolding H)) := by
  have hA : Agrees (H.foldl updateHoldingOnTx none)
      (H.foldl recalcStep ⟨0, 0, none⟩) :=
    agrees_foldl H none ⟨0, 0, none⟩ agrees_none hv
  obtain ⟨hq, hc, havg, hnn, hz⟩ := hA
  cases H with
  | nil =>
    refine ⟨rfl, rfl, fun hcon => absurd hcon ?_⟩
    rw [recalcHolding, rQuantity_none]
    exact lt_irrefl 0
  | cons t ts =>
    unfold replayIncremental
    rw [recalcHolding_cons]
    by_cases hpos : 0 < ((t :: ts).foldl recalcStep ⟨0, 0, none⟩).q
    · rw [if_pos hpos]
      simp only [rQuantity_some, rTotalCost_some, rAvgCost_some]
      exact ⟨hq, hc, fun _ => havg hpos⟩
    · rw [if_neg hpos]
      have hq0 : ((t :: ts).foldl recalcStep ⟨0, 0, none⟩).q = 0 :=
        le_antisymm (not_lt.mp hpos) hnn
      simp only [rQuantity_some, rTotalCost_some, rAvgCost_some]
      exact ⟨by rw [hq, hq0], by rw [hc, hz hq0],
        fun hcon => absurd (hq0 ▸ hcon) (lt_irrefl 0)⟩

/-- Witness for C3: the fee-free history "buy 10 at 2, sell 4" is valid
and the two algorithms agree on it. -/
theorem incremental_refines_recalc_witness :
    validHistory 0 [(⟨.buy, 10, 2, 0, 0, none⟩ : Tx),
      ⟨.sell, 4, 3, 0, 1, none⟩] = true ∧
    hQuantity (replayIncremental [(⟨.buy, 10, 2, 0, 0, none⟩ : Tx),
        ⟨.sell, 4, 3, 0, 1, none⟩]) =
      rQuantity (recalcHolding [(⟨.buy, 10, 2, 0, 0, none⟩ : Tx),
        ⟨.sell, 4, 3, 0, 1, none⟩]) := by
  have hv : validHistory 0 [(⟨.buy, 10, 2, 0, 0, none⟩ : Tx),
      ⟨.sell, 4, 3, 0, 1, none⟩] = true := by
    rw [validHistory]
    simp only [Bool.and_eq_true, decide_eq_true_eq]
    rw [validHistory]
    simp only [Bool.and_eq_true, decide_eq_true_eq]
    norm_num [validHistory]
  exact ⟨hv,
    (incremental_refines_recalc [(⟨.buy, 10, 2, 0, 0, none⟩ : Tx),
      ⟨.sell, 4, 3, 0, 1, none⟩] hv).1⟩

/-! ## C7: determinism of the recalculation under re-sorting -/

/-- A history in the order the database query delivers it:
non-decreasing `transaction_date`. -/
def SortedByDate (l : List Tx) : Prop :=
  List.Sorted (fun a b : Tx => a.date ≤ b.date) l

theorem sorted_perm_nodup_dates_eq : ∀ {l₁ l₂ : List Tx}, l₁.Perm l₂ →
    SortedByDate l₁ → SortedByDate l₂ → (l₁.map Tx.date).Nodup → l₁ = l₂ := by
  intro l₁
  induction l₁ with
  | nil =>
    intro l₂ hp _ _ _
    exact hp.nil_eq
  | cons a t₁ ih =>
    intro l₂ hp s₁ s₂ hnd
    cases l₂ with
    | nil => exact absurd hp.eq_nil (by simp)
    | cons b t₂ =>
      have hndh : a.date ∉ t₁.map Tx.date ∧ (t₁.map Tx.date).Nodup := by
        rw [List.map_cons, List.nodup_cons] at hnd
        exact hnd
      have hab : a = b := by
        by_contra hne
        have hb1 : b ∈ t₁ := by
          have : b ∈ a :: t₁ := hp.mem_iff.mpr (List.mem_cons_self b t₂)
          rcases List.mem_cons.mp this with hba | hbt
          · exact absurd hba.symm hne
          · exact hbt
        have ha2 : a ∈ t₂ := by
          have : a ∈ b :: t₂ := hp.mem_iff.mp (List.mem_cons_self a t₁)
          rcases List.mem_cons.mp this with hab' | hat
          · exact absurd hab' hne
          · exact hat
        have h1 : a.date ≤ b.date := (List.sorted_cons.mp s₁).1 b hb1
        have h2 : b.date ≤ a.date := (List.sorted_cons.mp s₂).1 a ha2
        have heq : a.date = b.date := le_antisymm h1 h2
        exact hndh.1 (heq ▸ List.mem_map_of_mem Tx.date hb1)
      subst hab
      rw [ih hp.cons_inv (List.sorted_cons.mp s₁).2
        (List.sorted_cons.mp s₂).2 hndh.2]

/-- C7 counterexample: with tied transaction dates, re-sorting a
permuted history by date does not determine the result.  Both histories
below are sorted by date (all dates equal) and are permutations of each
other, yet the fold returns total_cost 15 on one and 20 on the other —
`Recalculate` is not invariant under shuffle-then-resort when dates
collide. -/
theorem recalc_tied_dates_counterexample :
    List.Perm
      [(⟨.buy, 10, 1, 0, 0, none⟩ : Tx), ⟨.buy, 10, 2, 0, 0, none⟩,
        ⟨.sell, 10, 1, 0, 0, none⟩]
      [(⟨.buy, 10, 1, 0, 0, none⟩ : Tx), ⟨.sell, 10, 1, 0, 0, none⟩,
        ⟨.buy, 10, 2, 0, 0, none⟩] ∧
    SortedByDate [(⟨.buy, 10, 1, 0, 0, none⟩ : Tx), ⟨.buy, 10, 2, 0, 0, none⟩,
      ⟨.sell, 10, 1, 0, 0, none⟩] ∧
    SortedByDate [(⟨.buy, 10, 1, 0, 0, none⟩ : Tx), ⟨.sell, 10, 1, 0, 0, none⟩,
      ⟨.buy, 10, 2, 0, 0, none⟩] ∧
    rTotalCost (recalcHolding [(⟨.buy, 10, 1, 0, 0, none⟩ : Tx),
      ⟨.buy, 10, 2, 0, 0, none⟩, ⟨.sell, 10, 1, 0, 0, none⟩]) = 15 ∧
    rTotalCost (recalcHolding [(⟨.buy, 10, 1, 0, 0, none⟩ : Tx),
      ⟨.sell, 10, 1, 0, 0, none⟩, ⟨.buy, 10, 2, 0, 0, none⟩]) = 20 ∧
    (15 : ℚ) ≠ 20 := by
  refine ⟨?_, ?_, ?_, ?_, ?_, by norm_num⟩
  · exact List.Perm.cons _ (List.Perm.swap _ _ _)
  · simp [SortedByDate, List.sorted_cons]
  · simp [SortedByDate, List.sorted_cons]
  · norm_num [recalcHolding, recalcStep, rTotalCost]
  · norm_num [recalcHolding, recalcStep, rTotalCost]

/-- C7 (amended): the recalculation is a pure function of the history —
recomputing on the same list yields the same result — and, provided the
transaction dates are pairwise distinct, it is invariant under
shuffling followed by re-sorting by date: any two date-sorted
permutations of such a history are equal, hence recalculate to the same
result.  With tied dates the invariance fails (see the
counterexample). -/
theorem recalcHolding_deterministic :
    (∀ H : List Tx, recalcHolding H = recalcHolding H) ∧
    (∀ H₁ H₂ : List Tx, H₁.Perm H₂ → SortedByDate H₁ → SortedByDate H₂ →
      (H₁.map Tx.date).Nodup → recalcHolding H₁ = recalcHolding H₂) := by
  refine ⟨fun H => rfl, fun H₁ H₂ hp s₁ s₂ hnd => ?_⟩
  rw [sorted_perm_nodup_dates_eq hp s₁ s₂ hnd]

/-- Witness for C7: a two-transaction history with distinct dates,
compared against itself as its own date-sorted permutation. -/
theorem recalcHolding_deterministic_witness :
    List.Perm [(⟨.buy, 10, 2, 0, 0, none⟩ : Tx), ⟨.sell, 4, 3, 0, 1, none⟩]
      [(⟨.buy, 10, 2, 0, 0, none⟩ : Tx), ⟨.sell, 4, 3, 0, 1, none⟩] ∧
    SortedByDate [(⟨.buy, 10, 2, 0, 0, none⟩ : Tx), ⟨.sell, 4, 3, 0, 1, none⟩] ∧
    ([(⟨.buy, 10, 2, 0, 0, none⟩ : Tx),
      ⟨.sell, 4, 3, 0, 1, none⟩].map Tx.date).Nodup ∧
    recalcHolding [(⟨.buy, 10, 2, 0, 0, none⟩ : Tx), ⟨.sell, 4, 3, 0, 1, none⟩] =
      recalcHolding [(⟨.buy, 10, 2, 0, 0, none⟩ : Tx), ⟨.sell, 4, 3, 0, 1, none⟩] := by
  have hs : SortedByDate [(⟨.buy, 10, 2, 0, 0, none⟩ : Tx),
      ⟨.sell, 4, 3, 0, 1, none⟩] := by
    simp [SortedByDate, List.sorted_cons]
  have hnd : ([(⟨.buy, 10, 2, 0, 0, none⟩ : Tx),
      ⟨.sell, 4, 3, 0, 1, none⟩].map Tx.date).Nodup := by simp
  exact ⟨List.Perm.refl _, hs, hnd,
    recalcHolding_deterministic.2 _ _ (List.Perm.refl _) hs hs hnd⟩

end Folio
